import Mathlib

/-!
# Verification of the PowerGenome extraction pipeline

A shallow embedding of the region-aggregation / zone-indexing / output-formatting
logic of `powergenome/extract_pudl_data.py` and `powergenome/util.py`, together
with theorems settling the specification claims about that logic.

Modelling conventions:
* Python strings are Lean `String`s; Python's string comparison (code-point
  lexicographic) is modelled by a structurally recursive comparison on the
  underlying character lists, so that concrete instances evaluate by `decide`.
* A Python `dict` is modelled as an association list in insertion order;
  assignment to an existing key overwrites in place, assignment to a fresh key
  appends at the end, exactly as CPython dicts behave.
* A pandas `DataFrame` is modelled as a row index together with an association
  list of named columns.
* Python floats that carry megawatt / distance values are modelled as `Rat`.
-/

namespace PowerGenome

/-- Code-point lexicographic comparison of character lists: the order Python
uses to compare strings in `sorted(...)`. -/
def charListLe : List Char → List Char → Bool
  | [], _ => true
  | _ :: _, [] => false
  | a :: as, b :: bs => if a < b then true else if b < a then false else charListLe as bs

/-- `pyLe s t` holds when Python would accept `s <= t` for strings. -/
def pyLe (s t : String) : Prop := charListLe s.data t.data = true

instance : DecidableRel pyLe :=
  fun s t => inferInstanceAs (Decidable (charListLe s.data t.data = true))

/-- `pyLt s t` holds when Python would accept `s < t` for strings. -/
def pyLt (s t : String) : Prop := pyLe s t ∧ s ≠ t

instance : DecidableRel pyLt :=
  fun s t => inferInstanceAs (Decidable (pyLe s t ∧ s ≠ t))

lemma charListLe_cons_iff {a b : Char} {as bs : List Char} :
    charListLe (a :: as) (b :: bs) = true ↔ a < b ∨ (a = b ∧ charListLe as bs = true) := by
  simp only [charListLe]
  rcases lt_trichotomy a b with h | h | h
  · simp [h]
  · subst h
    simp [lt_irrefl]
  · simp [asymm h, h, h.ne']

lemma charListLe_refl (as : List Char) : charListLe as as = true := by
  induction as with
  | nil => rfl
  | cons a t ih => exact charListLe_cons_iff.mpr (Or.inr ⟨rfl, ih⟩)

lemma charListLe_total (as bs : List Char) :
    charListLe as bs = true ∨ charListLe bs as = true := by
  induction as generalizing bs with
  | nil => exact Or.inl rfl
  | cons a as ih =>
    cases bs with
    | nil => exact Or.inr rfl
    | cons b bs =>
      rcases lt_trichotomy a b with h | h | h
      · exact Or.inl (charListLe_cons_iff.mpr (Or.inl h))
      · subst h
        rcases ih bs with h' | h'
        · exact Or.inl (charListLe_cons_iff.mpr (Or.inr ⟨rfl, h'⟩))
        · exact Or.inr (charListLe_cons_iff.mpr (Or.inr ⟨rfl, h'⟩))
      · exact Or.inr (charListLe_cons_iff.mpr (Or.inl h))

lemma charListLe_trans {as bs cs : List Char}
    (h1 : charListLe as bs = true) (h2 : charListLe bs cs = true) :
    charListLe as cs = true := by
  induction as generalizing bs cs with
  | nil => rfl
  | cons a as ih =>
    cases bs with
    | nil => exact absurd h1 (by simp [charListLe])
    | cons b bs =>
      cases cs with
      | nil => exact absurd h2 (by simp [charListLe])
      | cons c cs =>
        rcases charListLe_cons_iff.mp h1 with hab | ⟨rfl, hab⟩ <;>
          rcases charListLe_cons_iff.mp h2 with hbc | ⟨rfl, hbc⟩
        · exact charListLe_cons_iff.mpr (Or.inl (lt_trans hab hbc))
        · exact charListLe_cons_iff.mpr (Or.inl hab)
        · exact charListLe_cons_iff.mpr (Or.inl hbc)
        · exact charListLe_cons_iff.mpr (Or.inr ⟨rfl, ih hab hbc⟩)

lemma charListLe_antisymm {as bs : List Char}
    (h1 : charListLe as bs = true) (h2 : charListLe bs as = true) : as = bs := by
  induction as generalizing bs with
  | nil =>
    cases bs with
    | nil => rfl
    | cons b bs => exact absurd h2 (by simp [charListLe])
  | cons a as ih =>
    cases bs with
    | nil => exact absurd h1 (by simp [charListLe])
    | cons b bs =>
      rcases charListLe_cons_iff.mp h1 with hab | ⟨rfl, hab⟩ <;>
        rcases charListLe_cons_iff.mp h2 with hba | ⟨hba', hba⟩
      · exact absurd hba (asymm hab)
      · exact absurd hab (by simp [hba'])
      · exact absurd hba (lt_irrefl a)
      · rw [ih hab hba]

instance : IsTotal String pyLe := ⟨fun s t => charListLe_total s.data t.data⟩

instance : IsTrans String pyLe := ⟨fun _ _ _ h1 h2 => charListLe_trans h1 h2⟩

instance : IsAntisymm String pyLe :=
  ⟨fun _ _ h1 h2 => String.ext (charListLe_antisymm h1 h2)⟩

instance : IsRefl String pyLe := ⟨fun s => charListLe_refl s.data⟩

lemma pyLe_refl (s : String) : pyLe s s := charListLe_refl s.data

lemma pyLe_antisymm {s t : String} (h1 : pyLe s t) (h2 : pyLe t s) : s = t :=
  String.ext (charListLe_antisymm h1 h2)

lemma pyLt_irrefl (s : String) : ¬ pyLt s s := fun h => h.2 rfl

lemma not_pyLt_of_pyLe {s t : String} (h : pyLe s t) : ¬ pyLt t s :=
  fun h' => h'.2 (pyLe_antisymm h'.1 h)

lemma pyLt_of_pyLe_ne {s t : String} (h : pyLe s t) (hne : s ≠ t) : pyLt s t := ⟨h, hne⟩

/-- `sorted(...)` from Python: a stable ascending comparison sort.  Modelled with
insertion sort over `pyLe`, which produces the same (unique, stable) result. -/
def pySorted (l : List String) : List String := List.insertionSort pyLe l

lemma pySorted_sorted (l : List String) : List.Sorted pyLe (pySorted l) :=
  List.sorted_insertionSort pyLe l

lemma pySorted_perm (l : List String) : (pySorted l).Perm l :=
  List.perm_insertionSort pyLe l

lemma pySorted_eq_of_perm {l1 l2 : List String} (h : l1.Perm l2) :
    pySorted l1 = pySorted l2 :=
  List.eq_of_perm_of_sorted ((pySorted_perm l1).trans (h.trans (pySorted_perm l2).symm))
    (pySorted_sorted l1) (pySorted_sorted l2)

lemma pySorted_of_sorted {l : List String} (h : List.Sorted pyLe l) : pySorted l = l :=
  List.Sorted.insertionSort_eq h

/-! ## Python dicts as ordered association lists -/

/-- `d[k] = v` on a CPython dict: overwrite in place when the key is present,
append at the end when it is fresh. -/
def dictInsert : List (String × α) → String → α → List (String × α)
  | [], k, v => [(k, v)]
  | p :: t, k, v => if p.1 = k then (k, v) :: t else p :: dictInsert t k v

/-- `d.get(k)`: the value stored at the first (hence only) occurrence of `k`. -/
def dictLookup (m : List (String × α)) (k : String) : Option α :=
  (m.find? (fun p => decide (p.1 = k))).map Prod.snd

/-- The dict built by inserting a sequence of key/value pairs in order, as a
Python dict comprehension does. -/
def pyDict (ps : List (String × α)) : List (String × α) :=
  ps.foldl (fun m p => dictInsert m p.1 p.2) []

lemma dictLookup_nil (k : String) : dictLookup ([] : List (String × α)) k = none := rfl

lemma dictLookup_cons (p : String × α) (t : List (String × α)) (k : String) :
    dictLookup (p :: t) k = if p.1 = k then some p.2 else dictLookup t k := by
  simp only [dictLookup, List.find?_cons]
  by_cases h : p.1 = k <;> simp [h]

lemma dictLookup_insert (m : List (String × α)) (k : String) (v : α) (k' : String) :
    dictLookup (dictInsert m k v) k' = if k' = k then some v else dictLookup m k' := by
  induction m with
  | nil =>
    show dictLookup [(k, v)] k' = _
    rw [dictLookup_cons, dictLookup_nil]
    by_cases h : k' = k
    · simp [h]
    · rw [if_neg (fun hh : k = k' => h hh.symm), if_neg h]
  | cons p t ih =>
    by_cases hp : p.1 = k
    · simp only [dictInsert, if_pos hp]
      rw [dictLookup_cons, dictLookup_cons]
      by_cases h : k' = k
      · subst h
        simp
      · rw [if_neg (fun hh : k = k' => h hh.symm), if_neg h,
          if_neg (fun hh : p.1 = k' => h (hh.symm.trans hp))]
    · simp only [dictInsert, if_neg hp]
      rw [dictLookup_cons, ih, dictLookup_cons]
      by_cases h : k' = k
      · subst h
        simp [hp]
      · simp [h]

lemma dictInsert_of_not_mem {m : List (String × α)} {k : String}
    (h : k ∉ m.map Prod.fst) (v : α) : dictInsert m k v = m ++ [(k, v)] := by
  induction m with
  | nil => rfl
  | cons p t ih =>
    simp only [List.map_cons, List.mem_cons] at h
    push_neg at h
    simp only [dictInsert]
    rw [if_neg (fun hh => h.1 hh.symm), ih h.2]
    rfl

lemma foldl_dictInsert_fresh (ps : List (String × α)) :
    ∀ m : List (String × α), (ps.map Prod.fst).Nodup →
      (∀ k ∈ ps.map Prod.fst, k ∉ m.map Prod.fst) →
      ps.foldl (fun m p => dictInsert m p.1 p.2) m = m ++ ps := by
  induction ps with
  | nil => intro m _ _; simp
  | cons p t ih =>
    intro m hnd hfresh
    simp only [List.map_cons, List.nodup_cons] at hnd
    have hp : p.1 ∉ m.map Prod.fst := hfresh p.1 (by simp)
    simp only [List.foldl_cons]
    rw [dictInsert_of_not_mem hp p.2]
    rw [ih (m ++ [(p.1, p.2)]) hnd.2]
    · simp
    · intro k hk
      simp only [List.map_append, List.mem_append]
      push_neg
      refine ⟨hfresh k (by simp [hk]), ?_⟩
      simp only [List.map_cons, List.map_nil, List.mem_cons]
      push_neg
      exact ⟨fun he => hnd.1 (he ▸ hk), fun he => (List.not_mem_nil k) he⟩

/-- A dict comprehension over pairwise-distinct keys is just the pair list. -/
lemma pyDict_of_nodup_keys {ps : List (String × α)} (h : (ps.map Prod.fst).Nodup) :
    pyDict ps = ps := by
  unfold pyDict
  rw [foldl_dictInsert_fresh ps [] h (by intro k _; simp)]
  rfl

/-- Looking up a key in a dict comprehension returns the value of the *last*
pair carrying that key: later assignments overwrite earlier ones. -/
lemma dictLookup_foldl_insert (ps : List (String × α)) :
    ∀ (m : List (String × α)) (k : String),
      dictLookup (ps.foldl (fun m p => dictInsert m p.1 p.2) m) k
        = match ps.reverse.find? (fun p => decide (p.1 = k)) with
          | some p => some p.2
          | none => dictLookup m k := by
  induction ps with
  | nil => intro m k; rfl
  | cons p t ih =>
    intro m k
    simp only [List.foldl_cons, List.reverse_cons, List.find?_append]
    rw [ih]
    cases hfind : t.reverse.find? (fun p => decide (p.1 = k)) with
    | some q => simp [Option.or]
    | none =>
      simp only [Option.or]
      rw [dictLookup_insert]
      cases hpk : (decide (p.1 = k) : Bool) with
      | true =>
        have : p.1 = k := of_decide_eq_true hpk
        simp [List.find?, hpk, this]
      | false =>
        have : ¬ k = p.1 := fun h => (of_decide_eq_false hpk) h.symm
        simp [List.find?, hpk, this]

lemma dictLookup_pyDict (ps : List (String × α)) (k : String) :
    dictLookup (pyDict ps) k
      = (ps.reverse.find? (fun p => decide (p.1 = k))).map Prod.snd := by
  unfold pyDict
  rw [dictLookup_foldl_insert]
  cases hfind : ps.reverse.find? (fun p => decide (p.1 = k)) <;> simp [dictLookup_nil]

/-! ## Zone Indexer (`extract_pudl_data.py` lines 109-115)

`settings["model_regions"] = sorted(settings["model_regions"])` followed by
`zone_num_map = {zone: f"{number + 1}" for zone, number in zip(zones, range(len(zones)))}`. -/

/-- The dict comprehension of line 113-115, on an arbitrary `zones` list. -/
def zone_num_map (zones : List String) : List (String × String) :=
  pyDict ((zones.zip (List.range zones.length)).map (fun zn => (zn.1, Nat.repr (zn.2 + 1))))

lemma zone_pairs_keys (zones : List String) :
    ((zones.zip (List.range zones.length)).map
      (fun zn => (zn.1, Nat.repr (zn.2 + 1)))).map Prod.fst = zones := by
  rw [List.map_map]
  have h : (Prod.fst ∘ fun zn : String × Nat => (zn.1, Nat.repr (zn.2 + 1))) = Prod.fst := rfl
  rw [h]
  exact List.map_fst_zip _ _ (by simp)

lemma zone_pairs_values (zones : List String) :
    ((zones.zip (List.range zones.length)).map
      (fun zn => (zn.1, Nat.repr (zn.2 + 1)))).map Prod.snd
      = (List.range zones.length).map (fun i => Nat.repr (i + 1)) := by
  rw [List.map_map]
  have h1 : (Prod.snd ∘ fun zn : String × Nat => (zn.1, Nat.repr (zn.2 + 1)))
      = (fun i => Nat.repr (i + 1)) ∘ Prod.snd := rfl
  rw [h1, ← List.map_map]
  rw [List.map_snd_zip _ _ (by simp)]

lemma zone_num_map_eq_pairs {zones : List String} (h : zones.Nodup) :
    zone_num_map zones
      = (zones.zip (List.range zones.length)).map (fun zn => (zn.1, Nat.repr (zn.2 + 1))) :=
  pyDict_of_nodup_keys (by rw [zone_pairs_keys]; exact h)

/-- On a sorted duplicate-free zone list, looking up a zone in the index pairs
returns one plus its rank (the number of strictly smaller zones), shifted by the
starting offset `k` of the index range. -/
lemma dictLookup_zip_range' (s : List String) :
    ∀ (k : Nat) (r : String), s.Nodup → List.Sorted pyLe s → r ∈ s →
      dictLookup ((s.zip (List.range' k s.length)).map
          (fun zn => (zn.1, Nat.repr (zn.2 + 1)))) r
        = some (Nat.repr (s.countP (fun x => decide (pyLt x r)) + k + 1)) := by
  induction s with
  | nil => intro k r _ _ hr; cases hr
  | cons a t ih =>
    intro k r hnd hsort hr
    rw [List.length_cons, List.range'_succ, List.zip_cons_cons, List.map_cons, dictLookup_cons]
    rw [List.nodup_cons] at hnd
    rw [List.sorted_cons] at hsort
    by_cases har : a = r
    · subst har
      rw [if_pos rfl]
      have hzero : (a :: t).countP (fun x => decide (pyLt x a)) = 0 := by
        rw [List.countP_eq_zero]
        intro x hx
        rcases List.mem_cons.mp hx with rfl | hxt
        · simpa using pyLt_irrefl x
        · simpa using not_pyLt_of_pyLe (hsort.1 x hxt)
      rw [hzero, Nat.zero_add]
    · rw [if_neg har]
      have hrt : r ∈ t := (List.mem_cons.mp hr).resolve_left (fun h => har h.symm)
      rw [ih (k + 1) r hnd.2 hsort.2 hrt]
      have hlt : pyLt a r := pyLt_of_pyLe_ne (hsort.1 r hrt) har
      rw [List.countP_cons]
      have harith : t.countP (fun x => decide (pyLt x r)) + (k + 1) + 1
          = t.countP (fun x => decide (pyLt x r)) + (if decide (pyLt a r) = true then 1 else 0) + k + 1 := by
        simp only [hlt, decide_eq_true_eq, if_pos]
        omega
      rw [harith]

/-- The zone index assigned to a region is one plus the number of regions that
compare strictly below it — lexicographic rank, 1-based. -/
lemma zone_lookup_rank {regions : List String} (hnd : regions.Nodup)
    {r : String} (hr : r ∈ regions) :
    dictLookup (zone_num_map (pySorted regions)) r
      = some (Nat.repr ((regions.filter (fun x => decide (pyLt x r))).length + 1)) := by
  have hperm := pySorted_perm regions
  have hnd' : (pySorted regions).Nodup := (hperm.nodup_iff).mpr hnd
  have hr' : r ∈ pySorted regions := hperm.mem_iff.mpr hr
  rw [zone_num_map_eq_pairs hnd', List.range_eq_range']
  rw [dictLookup_zip_range' (pySorted regions) 0 r hnd' (pySorted_sorted regions) hr']
  rw [hperm.countP_eq, ← List.countP_eq_length_filter]

/-! ## Region Aggregator (`util.py` lines 25-42) -/

/-- Embeds `reverse_dict_of_lists(d)`, i.e. `{v: k for k in d for v in d[k]}`:
the dict comprehension inserts, entry by entry in iteration order of `d`, one
pair per member, so a member listed under several aggregates keeps the
last-seen aggregate key. -/
def reverse_dict_of_lists (d : List (String × List String)) : List (String × String) :=
  pyDict (d.flatMap (fun kv => kv.2.map (fun v => (v, kv.1))))

lemma find?_eq_self (v : String) (l : List String) :
    l.find? (fun x => decide (x = v)) = if v ∈ l then some v else none := by
  induction l with
  | nil => rfl
  | cons a t ih =>
    rw [List.find?_cons]
    by_cases h : a = v
    · subst h
      simp
    · simp [h, ih, List.mem_cons, show v ≠ a from fun hh => h hh.symm]

lemma find?_entry_pairs (k v : String) (vs : List String) :
    ((vs.map (fun x => (x, k))).reverse.find? (fun p => decide (p.1 = v))).map Prod.snd
      = if v ∈ vs then some k else none := by
  rw [← List.map_reverse, List.find?_map]
  have hp : ((fun p : String × String => decide (p.1 = v)) ∘ (fun x => (x, k)))
      = (fun x => decide (x = v)) := rfl
  rw [hp, find?_eq_self]
  by_cases h : v ∈ vs
  · simp [h, List.mem_reverse]
  · simp [h, List.mem_reverse]

/-- The characteristic property of `reverse_dict_of_lists`: the inverse map
sends a member to the key of the *last* entry of `d` whose member list contains
it, and is undefined on non-members.  (The function is total: duplicate
membership raises no error.) -/
lemma reverse_dict_last_seen (d : List (String × List String)) (v : String) :
    dictLookup (reverse_dict_of_lists d) v
      = (d.reverse.find? (fun kv => decide (v ∈ kv.2))).map Prod.fst := by
  induction d with
  | nil => rfl
  | cons kv d' ih =>
    unfold reverse_dict_of_lists at ih ⊢
    rw [dictLookup_pyDict] at ih ⊢
    rw [List.flatMap_cons, List.reverse_append, List.find?_append]
    rw [List.reverse_cons, List.find?_append]
    cases h1 : (d'.flatMap (fun kv => kv.2.map (fun v => (v, kv.1)))).reverse.find?
        (fun p => decide (p.1 = v)) with
    | some p =>
      rw [h1] at ih
      cases h2 : d'.reverse.find? (fun kv => decide (v ∈ kv.2)) with
      | some kv2 =>
        rw [h2] at ih
        rw [show (some p).or ((kv.2.map (fun v => (v, kv.1))).reverse.find?
          (fun p => decide (p.1 = v))) = some p from rfl]
        rw [show (some kv2).or (List.find? (fun kv => decide (v ∈ kv.2)) [kv]) = some kv2 from rfl]
        exact ih
      | none =>
        rw [h2] at ih
        simp at ih
    | none =>
      rw [h1] at ih
      cases h2 : d'.reverse.find? (fun kv => decide (v ∈ kv.2)) with
      | some kv2 =>
        rw [h2] at ih
        simp at ih
      | none =>
        rw [Option.none_or, Option.none_or]
        rw [find?_entry_pairs]
        by_cases hm : v ∈ kv.2
        · simp [List.find?, hm]
        · simp [List.find?, hm]

/-! ## DataFrames and `map_agg_region_names` -/

/-- A pandas dataframe with string-valued columns: a row index together with an
ordered association list of named columns. -/
structure DataFrame where
  rowIndex : List Nat
  cols : List (String × List String)
deriving DecidableEq

/-- `df[c]`, `none` when the column is missing (pandas `KeyError`). -/
def df_get_col (df : DataFrame) (c : String) : Option (List String) := dictLookup df.cols c

/-- `df[c] = vs`: overwrite an existing column in place, else append it. -/
def df_set_col (df : DataFrame) (c : String) (vs : List String) : DataFrame :=
  DataFrame.mk df.rowIndex (dictInsert df.cols c vs)

/-- Embeds `util.map_agg_region_names` (lines 30-42): the new column is first a
copy of the original column (line 32), then the rows whose original value is a
key of `region_agg_map` are overwritten with the mapped aggregate name
(lines 34-40), and the same dataframe is returned (line 42). -/
def map_agg_region_names (df : DataFrame) (region_agg_map : List (String × String))
    (original_col_name new_col_name : String) : Option DataFrame :=
  match df_get_col df original_col_name with
  | none => none
  | some orig =>
    let df1 := df_set_col df new_col_name orig
    let mapped := orig.map (fun v =>
      if v ∈ region_agg_map.map Prod.fst then (dictLookup region_agg_map v).getD v else v)
    some (df_set_col df1 new_col_name mapped)

lemma dictLookup_isSome_of_mem_keys {m : List (String × α)} {v : String}
    (h : v ∈ m.map Prod.fst) : ∃ w, dictLookup m v = some w := by
  induction m with
  | nil => simp at h
  | cons p t ih =>
    rw [dictLookup_cons]
    by_cases hp : p.1 = v
    · exact ⟨p.2, by rw [if_pos hp]⟩
    · rw [if_neg hp]
      apply ih
      rw [List.map_cons] at h
      rcases List.mem_cons.mp h with he | ht
      · exact absurd he.symm hp
      · exact ht

lemma dictInsert_keys (m : List (String × α)) (k : String) (v : α) :
    (dictInsert m k v).map Prod.fst
      = if k ∈ m.map Prod.fst then m.map Prod.fst else m.map Prod.fst ++ [k] := by
  induction m with
  | nil => simp [dictInsert]
  | cons p t ih =>
    by_cases hp : p.1 = k
    · have hstep : dictInsert (p :: t) k v = (k, v) :: t := by
        simp [dictInsert, hp]
      rw [hstep, List.map_cons, List.map_cons]
      rw [if_pos (List.mem_cons.mpr (Or.inl hp.symm))]
      rw [hp]
    · have hstep : dictInsert (p :: t) k v = p :: dictInsert t k v := by
        simp [dictInsert, hp]
      rw [hstep, List.map_cons, ih, List.map_cons]
      by_cases hm : k ∈ t.map Prod.fst
      · rw [if_pos hm, if_pos (List.mem_cons.mpr (Or.inr hm))]
      · have hc : ¬ k ∈ p.1 :: t.map Prod.fst := by
          intro hc
          rcases List.mem_cons.mp hc with he | ht
          · exact hp he.symm
          · exact hm ht
        rw [if_neg hm, if_neg hc, List.cons_append]

/-! ## Region Validator and the `main` pipeline (`extract_pudl_data.py`) -/

/-- The settings mapping, restricted to the keys the region logic reads. -/
structure Settings where
  model_regions : List String
  region_aggregations : List (String × List String)
deriving DecidableEq

/-- Line 96: `all_valid_regions = ipm_regions.tolist() + list(settings["region_aggregations"])`
(iterating a dict yields its keys). -/
def all_valid_regions (ipm_regions : List String) (s : Settings) : List String :=
  ipm_regions ++ s.region_aggregations.map Prod.fst

/-- Line 97: `good_regions = [region in all_valid_regions for region in settings["model_regions"]]`. -/
def good_regions (ipm_regions : List String) (s : Settings) : List Bool :=
  s.model_regions.map (fun region => decide (region ∈ all_valid_regions ipm_regions s))

/-- Lines 103-107: `if not all(good_regions): logger.warning(...)` — the number
of region-validation warnings `main` logs. -/
def region_validation_warnings (ipm_regions : List String) (s : Settings) : Nat :=
  if (good_regions ipm_regions s).all id then 0 else 1

/-! ## Load Curve output (lines 125-126 and 148) -/

/-- pandas `.astype(int)` on a float value: C-style truncation toward zero. -/
def astype_int (q : Rat) : Int := q.num.tdiv (q.den : Int)

/-- Line 126: `load.columns = "Load_MW_z" + load.columns.map(zone_num_map)`.
A column whose name is missing from the zone map gets pandas `NaN`, on which
the string concatenation fails; modelled as `none`. -/
def rename_load_columns (zmap : List (String × String))
    (load : List (String × List Rat)) : Option (List (String × List Rat)) :=
  load.mapM (fun col => (dictLookup zmap col.1).map (fun i => ("Load_MW_z" ++ i, col.2)))

/-- Line 148: `load.astype(int)` — every value truncated to integer megawatts. -/
def load_astype_int (load : List (String × List Rat)) : List (String × List Int) :=
  load.map (fun col => (col.1, col.2.map astype_int))

/-- The load table as renamed on line 126 and written on line 148. -/
def load_output (zmap : List (String × String)) (load : List (String × List Rat)) :
    Option (List (String × List Int)) :=
  (rename_load_columns zmap load).map load_astype_int

/-- The observable outcome of the region-handling core of `main` (lines 95-148). -/
structure RunResult where
  warnings : Nat
  settings_out : Settings
  zone_map : List (String × String)
  gen_cluster_zone_col : List (Option String)
  load_out : Option (List (String × List Int))
deriving DecidableEq

/-- The region-handling core of `main`, in source order: validate regions
(lines 95-107), sort `model_regions` in the settings (line 110), build
`zone_num_map` (lines 113-115), map the generator-cluster region index through
the zone map (lines 121-123), rename and truncate the load table
(lines 126, 148).  `gen_cluster_regions` and `load` stand for the collaborator
outputs (`GeneratorClusters`, `load_curves`). -/
def run_extract (ipm_regions : List String) (s : Settings)
    (gen_cluster_regions : List String) (load : List (String × List Rat)) : RunResult :=
  let warnings := region_validation_warnings ipm_regions s
  let s1 : Settings := Settings.mk (pySorted s.model_regions) s.region_aggregations
  let zmap := zone_num_map s1.model_regions
  RunResult.mk warnings s1 zmap
    (gen_cluster_regions.map (fun r => dictLookup zmap r))
    (load_output zmap load)

/-! ## CSV float formatting (lines 139-142 and 149-152) -/

/-- The integer `round(q * 10 ^ prec)` that `%.<prec>f` formatting prints.
Rounds to nearest; ties are modelled half-up (the exact tie behaviour of C
`printf` depends on the binary double and is outside this model). -/
def round_scaled (prec : Nat) (q : Rat) : Int := round (q * (10 : Rat) ^ prec)

/-- The last `prec` decimal digits of `r`, most significant first, zero-padded. -/
def fixed_frac_digits : Nat → Nat → List Char
  | 0, _ => []
  | n + 1, r => fixed_frac_digits n (r / 10) ++ [Char.ofNat (48 + r % 10)]

/-- Sign and integer digits of `%.<prec>f` output. -/
def float_int_part (prec : Nat) (q : Rat) : String :=
  (if round_scaled prec q < 0 then "-" else "")
    ++ Nat.repr ((round_scaled prec q).natAbs / 10 ^ prec)

/-- The `prec` digits after the decimal point of `%.<prec>f` output. -/
def float_frac_part (prec : Nat) (q : Rat) : String :=
  String.mk (fixed_frac_digits prec ((round_scaled prec q).natAbs % 10 ^ prec))

/-- `%.<prec>f` fixed-point formatting of a float value, as passed to
`to_csv(float_format="%.3f")` for generator clusters (lines 139-142) and
`to_csv(float_format="%.1f")` for transmission constraints (lines 149-152). -/
def float_format (prec : Nat) (q : Rat) : String :=
  float_int_part prec q ++ "." ++ float_frac_part prec q

/-- `to_csv` with a `float_format`: every float cell is serialized with it. -/
def to_csv_float_format (prec : Nat) (table : List (List Rat)) : List (List String) :=
  table.map (fun row => row.map (float_format prec))

lemma fixed_frac_digits_length (prec : Nat) :
    ∀ r : Nat, (fixed_frac_digits prec r).length = prec := by
  induction prec with
  | zero => intro r; rfl
  | succ n ih =>
    intro r
    show (fixed_frac_digits n (r / 10) ++ [Char.ofNat (48 + r % 10)]).length = n + 1
    rw [List.length_append, ih]
    rfl

lemma float_frac_part_length (prec : Nat) (q : Rat) :
    (float_frac_part prec q).length = prec :=
  fixed_frac_digits_length prec _

lemma mapM_option_eq_map {α β : Type} (f : α → Option β) (g : α → β) :
    ∀ l : List α, (∀ a ∈ l, f a = some (g a)) → l.mapM f = some (l.map g) := by
  intro l
  induction l with
  | nil => intro _; rfl
  | cons a t ih =>
    intro h
    rw [List.mapM_cons, h a (List.mem_cons.mpr (Or.inl rfl)),
      ih (fun x hx => h x (List.mem_cons.mpr (Or.inr hx)))]
    rfl

/-! ## Claim theorems -/

/-- Claim C1: for every non-empty duplicate-free `model_regions`, the Zone
Indexer's mapping has the lexicographically sorted region list as its keys, in
sorted order; it assigns each region the string index `rank + 1`, where `rank`
is the number of strictly smaller regions; its values are exactly the dense
contiguous 1-based sequence "1", "2", ..., "n" in order; and in particular for
regions `["b","a","c"]` the mapping is `{"a": "1", "b": "2", "c": "3"}`. -/
theorem C1_zone_indexer (regions : List String) (_hne : regions ≠ [])
    (hnd : regions.Nodup) :
    ((zone_num_map (pySorted regions)).map Prod.fst = pySorted regions
      ∧ List.Sorted pyLe ((zone_num_map (pySorted regions)).map Prod.fst))
    ∧ (∀ r ∈ regions, dictLookup (zone_num_map (pySorted regions)) r
        = some (Nat.repr ((regions.filter (fun x => decide (pyLt x r))).length + 1)))
    ∧ (zone_num_map (pySorted regions)).map Prod.snd
        = (List.range regions.length).map (fun i => Nat.repr (i + 1))
    ∧ zone_num_map (pySorted ["b", "a", "c"]) = [("a", "1"), ("b", "2"), ("c", "3")] := by
  have hnd' : (pySorted regions).Nodup := (pySorted_perm regions).nodup_iff.mpr hnd
  have hkeys : (zone_num_map (pySorted regions)).map Prod.fst = pySorted regions := by
    rw [zone_num_map_eq_pairs hnd', zone_pairs_keys]
  refine ⟨⟨hkeys, ?_⟩, ?_, ?_, ?_⟩
  · rw [hkeys]
    exact pySorted_sorted regions
  · intro r hr
    exact zone_lookup_rank hnd hr
  · rw [zone_num_map_eq_pairs hnd', zone_pairs_values, (pySorted_perm regions).length_eq]
  · decide

/-- Witness for C1, at `regions = ["b","a","c"]` and region `"a"`. -/
theorem C1_zone_indexer_witness :
    dictLookup (zone_num_map (pySorted ["b", "a", "c"])) "a" = some "1" := by
  have h := (C1_zone_indexer ["b", "a", "c"] (by decide) (by decide)).2.1 "a" (by decide)
  rw [h]
  decide

/-- Claim C9: the Zone Indexer is deterministic — any two `model_regions`
inputs that are permutations of each other (the same set, in any iteration
order) produce the same mapping — and idempotent: re-running sort plus indexing
on the already-sorted region list yields the same mapping. -/
theorem C9_zone_indexer_deterministic :
    (∀ l1 l2 : List String, l1.Perm l2 →
        zone_num_map (pySorted l1) = zone_num_map (pySorted l2))
    ∧ (∀ l : List String, zone_num_map (pySorted (pySorted l)) = zone_num_map (pySorted l)) := by
  constructor
  · intro l1 l2 h
    rw [pySorted_eq_of_perm h]
  · intro l
    rw [pySorted_of_sorted (pySorted_sorted l)]

/-- Witness for C9, at the permuted pair `["b","a"]` / `["a","b"]`. -/
theorem C9_zone_indexer_deterministic_witness :
    zone_num_map (pySorted ["b", "a"]) = zone_num_map (pySorted ["a", "b"]) :=
  C9_zone_indexer_deterministic.1 ["b", "a"] ["a", "b"] (by decide)

/-- Claim C2: when no member region appears under two different aggregate keys,
`reverse_dict_of_lists` is the inverse one-to-many mapping — every member of an
entry's list maps to that entry's key, names occurring in no list are absent —
and in particular `reverse_dict_of_lists {"X": ["p","q"]} = {"p": "X", "q": "X"}`. -/
theorem C2_reverse_dict_inverse (d : List (String × List String))
    (hdisj : ∀ k1 vs1 k2 vs2 v, (k1, vs1) ∈ d → (k2, vs2) ∈ d →
      v ∈ vs1 → v ∈ vs2 → k1 = k2) :
    (∀ k vs v, (k, vs) ∈ d → v ∈ vs →
        dictLookup (reverse_dict_of_lists d) v = some k)
    ∧ (∀ v, (∀ k vs, (k, vs) ∈ d → v ∉ vs) →
        dictLookup (reverse_dict_of_lists d) v = none)
    ∧ reverse_dict_of_lists [("X", ["p", "q"])] = [("p", "X"), ("q", "X")] := by
  refine ⟨?_, ?_, by decide⟩
  · intro k vs v hkvs hv
    unfold reverse_dict_of_lists
    rw [dictLookup_pyDict]
    have hmem : (v, k) ∈ (d.flatMap (fun kv => kv.2.map (fun v => (v, kv.1)))).reverse := by
      rw [List.mem_reverse, List.mem_flatMap]
      exact ⟨(k, vs), hkvs, List.mem_map.mpr ⟨v, hv, rfl⟩⟩
    have hsome : ((d.flatMap (fun kv => kv.2.map (fun v => (v, kv.1)))).reverse.find?
        (fun p => decide (p.1 = v))).isSome := by
      rw [List.find?_isSome]
      exact ⟨(v, k), hmem, by simp⟩
    obtain ⟨p, hp⟩ := Option.isSome_iff_exists.mp hsome
    have hpin : p ∈ d.flatMap (fun kv => kv.2.map (fun v => (v, kv.1))) :=
      List.mem_reverse.mp (List.mem_of_find?_eq_some hp)
    rw [List.mem_flatMap] at hpin
    obtain ⟨⟨k', vs'⟩, hk'd, hpmem⟩ := hpin
    obtain ⟨x, hx, rfl⟩ := List.mem_map.mp hpmem
    have hp1 : x = v := by simpa using List.find?_some hp
    subst hp1
    have hk'k : k' = k := hdisj k' vs' k vs x hk'd hkvs hx hv
    rw [hp]
    simp [hk'k]
  · intro v hnone
    unfold reverse_dict_of_lists
    rw [dictLookup_pyDict]
    rw [List.find?_eq_none.mpr ?_]
    · rfl
    · intro p hp
      rw [List.mem_reverse, List.mem_flatMap] at hp
      obtain ⟨⟨k', vs'⟩, hk'd, hpmem⟩ := hp
      obtain ⟨x, hx, rfl⟩ := List.mem_map.mp hpmem
      simp only [decide_eq_true_eq]
      intro he
      exact hnone k' vs' hk'd (he ▸ hx)

/-- Witness for C2, at `d = [("X", ["p","q"])]` and member `"p"`. -/
theorem C2_reverse_dict_inverse_witness :
    dictLookup (reverse_dict_of_lists [("X", ["p", "q"])]) "p" = some "X" := by
  have h := (C2_reverse_dict_inverse [("X", ["p", "q"])]
    (by
      intro k1 vs1 k2 vs2 v h1 h2 _ _
      have h1' := List.mem_singleton.mp h1
      have h2' := List.mem_singleton.mp h2
      rw [Prod.mk.injEq] at h1' h2'
      rw [h1'.1, h2'.1])).1
    "X" ["p", "q"] "p" (by decide) (by decide)
  exact h

/-- Claim C6: `reverse_dict_of_lists` raises no error on duplicate membership —
it is a total function whose lookup sends every name to the key of the *last*
entry (in the iteration order of `d`) whose member list contains it, silently
discarding earlier mappings; in particular with `"p"` under `"X"` first and
`"Y"` last, `"p"` maps to `"Y"`. -/
theorem C6_reverse_dict_last_wins (d : List (String × List String)) (v : String) :
    dictLookup (reverse_dict_of_lists d) v
      = (d.reverse.find? (fun kv => decide (v ∈ kv.2))).map Prod.fst
    ∧ dictLookup (reverse_dict_of_lists [("X", ["p"]), ("Y", ["p"])]) "p" = some "Y" :=
  ⟨reverse_dict_last_seen d v, by decide⟩

/-- Reduction of `map_agg_region_names` when the original column exists. -/
lemma map_agg_eq {df : DataFrame} {m : List (String × String)} {oc nc : String}
    {orig : List String} (hoc : df_get_col df oc = some orig) :
    map_agg_region_names df m oc nc
      = some (df_set_col (df_set_col df nc orig) nc (orig.map (fun v =>
          if v ∈ m.map Prod.fst then (dictLookup m v).getD v else v))) := by
  unfold map_agg_region_names
  rw [hoc]

/-- Claim C3: when the original column exists, `map_agg_region_names` succeeds
and produces a new column that holds, row by row, the aggregate name whenever
the original value is a key of the member map and the original value unchanged
otherwise; in particular member map `{"p": "X", "q": "X"}` applied to original
values `["p", "z"]` yields new-column values `["X", "z"]`. -/
theorem C3_map_agg_region_names (df : DataFrame) (m : List (String × String))
    (oc nc : String) (orig : List String) (hoc : df_get_col df oc = some orig) :
    (∃ df' newvals, map_agg_region_names df m oc nc = some df'
      ∧ df_get_col df' nc = some newvals
      ∧ List.Forall₂ (fun v w =>
          (v ∈ m.map Prod.fst → dictLookup m v = some w)
          ∧ (v ∉ m.map Prod.fst → w = v)) orig newvals)
    ∧ map_agg_region_names (DataFrame.mk [0, 1] [("region", ["p", "z"])])
          [("p", "X"), ("q", "X")] "region" "model_region"
        = some (DataFrame.mk [0, 1] [("region", ["p", "z"]), ("model_region", ["X", "z"])]) := by
  refine ⟨?_, by decide⟩
  refine ⟨_, orig.map (fun v =>
    if v ∈ m.map Prod.fst then (dictLookup m v).getD v else v), map_agg_eq hoc, ?_, ?_⟩
  · show dictLookup (dictInsert (dictInsert df.cols nc orig) nc _) nc = _
    rw [dictLookup_insert, if_pos rfl]
  · rw [List.forall₂_map_right_iff, List.forall₂_same]
    intro v _
    constructor
    · intro hk
      obtain ⟨w, hw⟩ := dictLookup_isSome_of_mem_keys hk
      rw [if_pos hk, hw]
      rfl
    · intro hnk
      rw [if_neg hnk]

/-- Witness for C3, at the dataframe with original column `["p","z"]`. -/
theorem C3_map_agg_region_names_witness :
    ∃ df' newvals,
      map_agg_region_names (DataFrame.mk [0, 1] [("region", ["p", "z"])])
          [("p", "X"), ("q", "X")] "region" "model_region" = some df'
      ∧ df_get_col df' "model_region" = some newvals
      ∧ List.Forall₂ (fun v w =>
          (v ∈ ([("p", "X"), ("q", "X")] : List (String × String)).map Prod.fst →
            dictLookup [("p", "X"), ("q", "X")] v = some w)
          ∧ (v ∉ ([("p", "X"), ("q", "X")] : List (String × String)).map Prod.fst → w = v))
          ["p", "z"] newvals :=
  (C3_map_agg_region_names (DataFrame.mk [0, 1] [("region", ["p", "z"])])
    [("p", "X"), ("q", "X")] "region" "model_region" ["p", "z"] (by decide)).1

/-- Claim C10: `map_agg_region_names` returns the input dataframe updated with
exactly the one column `new_col_name` (overwritten in place when it exists,
appended at the end otherwise): the row index, the original region column and
every other column are unchanged. -/
theorem C10_map_agg_frame (df : DataFrame) (m : List (String × String))
    (oc nc : String) (orig : List String) (hoc : df_get_col df oc = some orig)
    (hne : oc ≠ nc) :
    ∃ df', map_agg_region_names df m oc nc = some df'
      ∧ df'.rowIndex = df.rowIndex
      ∧ (∀ c, c ≠ nc → df_get_col df' c = df_get_col df c)
      ∧ df_get_col df' oc = some orig
      ∧ df'.cols.map Prod.fst
          = (if nc ∈ df.cols.map Prod.fst then df.cols.map Prod.fst
             else df.cols.map Prod.fst ++ [nc]) := by
  refine ⟨_, map_agg_eq hoc, rfl, ?_, ?_, ?_⟩
  · intro c hc
    show dictLookup (dictInsert (dictInsert df.cols nc orig) nc _) c = _
    rw [dictLookup_insert, if_neg hc, dictLookup_insert, if_neg hc]
    rfl
  · show dictLookup (dictInsert (dictInsert df.cols nc orig) nc _) oc = _
    rw [dictLookup_insert, if_neg hne, dictLookup_insert, if_neg hne]
    exact hoc
  · show (dictInsert (dictInsert df.cols nc orig) nc _).map Prod.fst = _
    rw [dictInsert_keys, dictInsert_keys]
    by_cases hm : nc ∈ df.cols.map Prod.fst <;> simp [hm]

/-- Witness for C10, at the dataframe with columns `region` (original) and a
fresh `model_region` target. -/
theorem C10_map_agg_frame_witness :
    ∃ df', map_agg_region_names (DataFrame.mk [0, 1] [("region", ["p", "z"])])
          [("p", "X"), ("q", "X")] "region" "model_region" = some df'
      ∧ df'.rowIndex = (DataFrame.mk [0, 1] [("region", ["p", "z"])]).rowIndex
      ∧ (∀ c, c ≠ "model_region" →
          df_get_col df' c = df_get_col (DataFrame.mk [0, 1] [("region", ["p", "z"])]) c)
      ∧ df_get_col df' "region" = some ["p", "z"]
      ∧ df'.cols.map Prod.fst
          = (if "model_region" ∈ (DataFrame.mk [0, 1]
                [("region", ["p", "z"])]).cols.map Prod.fst
             then (DataFrame.mk [0, 1] [("region", ["p", "z"])]).cols.map Prod.fst
             else (DataFrame.mk [0, 1] [("region", ["p", "z"])]).cols.map Prod.fst
                ++ ["model_region"]) :=
  C10_map_agg_frame (DataFrame.mk [0, 1] [("region", ["p", "z"])])
    [("p", "X"), ("q", "X")] "region" "model_region" ["p", "z"] (by decide) (by decide)

/-- Claim C4: the Region Validator's valid-name set is the union of the
warehouse reference regions and the `region_aggregations` keys; when every
model region is in that union no warning is logged, otherwise exactly one
warning is logged; and the validation outcome has no effect on anything
downstream — the sorted settings, zone map, generator zone column and load
output are identical whatever the reference-region list, so execution always
continues through to the output-writing stage. -/
theorem C4_region_validator (ipm_regions : List String) (s : Settings)
    (gen_cluster_regions : List String) (load : List (String × List Rat)) :
    ((run_extract ipm_regions s gen_cluster_regions load).warnings
        = if ∀ r ∈ s.model_regions, r ∈ all_valid_regions ipm_regions s then 0 else 1)
    ∧ (∀ ipm2 : List String,
        (run_extract ipm_regions s gen_cluster_regions load).settings_out
            = (run_extract ipm2 s gen_cluster_regions load).settings_out
        ∧ (run_extract ipm_regions s gen_cluster_regions load).zone_map
            = (run_extract ipm2 s gen_cluster_regions load).zone_map
        ∧ (run_extract ipm_regions s gen_cluster_regions load).gen_cluster_zone_col
            = (run_extract ipm2 s gen_cluster_regions load).gen_cluster_zone_col
        ∧ (run_extract ipm_regions s gen_cluster_regions load).load_out
            = (run_extract ipm2 s gen_cluster_regions load).load_out)
    ∧ (run_extract ipm_regions s gen_cluster_regions load).load_out
        = load_output (zone_num_map (pySorted s.model_regions)) load := by
  refine ⟨?_, fun ipm2 => ⟨rfl, rfl, rfl, rfl⟩, rfl⟩
  show region_validation_warnings ipm_regions s = _
  unfold region_validation_warnings good_regions
  have hiff : ((s.model_regions.map
        (fun region => decide (region ∈ all_valid_regions ipm_regions s))).all id = true)
      ↔ ∀ r ∈ s.model_regions, r ∈ all_valid_regions ipm_regions s := by
    rw [List.all_eq_true]
    constructor
    · intro hall r hr
      have := hall (decide (r ∈ all_valid_regions ipm_regions s))
        (List.mem_map.mpr ⟨r, hr, rfl⟩)
      simpa using this
    · intro hall b hb
      obtain ⟨r, hr, rfl⟩ := List.mem_map.mp hb
      simpa using hall r hr
  by_cases h : ∀ r ∈ s.model_regions, r ∈ all_valid_regions ipm_regions s
  · rw [if_pos (hiff.mpr h), if_pos h]
  · rw [if_neg (fun hc => h (hiff.mp hc)), if_neg h]

/-- Claim C5 is false of the code: `main` reassigns
`settings["model_regions"] = sorted(settings["model_regions"])` on line 110,
so with loaded `model_regions = ["b","a"]` the settings observed by every
later component differ from the loaded settings. -/
theorem C5_settings_mutated_counterexample :
    (run_extract [] (Settings.mk ["b", "a"] []) [] []).settings_out
      ≠ Settings.mk ["b", "a"] [] := by decide

/-- Claim C5, amended: after `load_settings` returns, the only mutation any
pipeline component applies to the settings is line 110's sorting of
`model_regions` — `region_aggregations` is unchanged, `model_regions` is
replaced by a sorted permutation of the loaded list, and settings whose
`model_regions` is already sorted pass through entirely unchanged. -/
theorem C5_settings_sorted_only_mutation (ipm_regions : List String) (s : Settings)
    (gen_cluster_regions : List String) (load : List (String × List Rat)) :
    ((run_extract ipm_regions s gen_cluster_regions load).settings_out.region_aggregations
        = s.region_aggregations)
    ∧ (run_extract ipm_regions s gen_cluster_regions load).settings_out.model_regions.Perm
        s.model_regions
    ∧ List.Sorted pyLe
        (run_extract ipm_regions s gen_cluster_regions load).settings_out.model_regions
    ∧ (List.Sorted pyLe s.model_regions →
        (run_extract ipm_regions s gen_cluster_regions load).settings_out = s) := by
  refine ⟨rfl, pySorted_perm s.model_regions, pySorted_sorted s.model_regions, ?_⟩
  intro hs
  show Settings.mk (pySorted s.model_regions) s.region_aggregations = s
  rw [pySorted_of_sorted hs]

/-- Witness for the amended C5, at already-sorted `model_regions = ["a","b"]`. -/
theorem C5_settings_sorted_only_mutation_witness :
    (run_extract [] (Settings.mk ["a", "b"] []) [] []).settings_out
      = Settings.mk ["a", "b"] [] :=
  (C5_settings_sorted_only_mutation [] (Settings.mk ["a", "b"] []) [] []).2.2.2
    (by decide)

/-- Claim C7: for a load table whose column names are model regions (the region
list being duplicate-free), the written load table renames each column to
`Load_MW_z<index>`, where `<index>` is the Zone Map index of the region (one
plus its lexicographic rank), and truncates — not rounds — every value toward
zero to integer megawatts, so 12.7 becomes 12; in particular with
`model_regions = ["a","b"]` the output columns are exactly
`["Load_MW_z1", "Load_MW_z2"]`. -/
theorem C7_load_curve_output (regions : List String) (hnd : regions.Nodup)
    (load : List (String × List Rat)) (hcols : ∀ c ∈ load.map Prod.fst, c ∈ regions) :
    load_output (zone_num_map (pySorted regions)) load
      = some (load.map (fun col =>
          ("Load_MW_z"
              ++ Nat.repr ((regions.filter (fun x => decide (pyLt x col.1))).length + 1),
           col.2.map astype_int)))
    ∧ astype_int (mkRat 127 10) = 12
    ∧ load_output (zone_num_map (pySorted ["a", "b"]))
        [("a", [mkRat 127 10]), ("b", [mkRat 5 2])]
      = some [("Load_MW_z1", [12]), ("Load_MW_z2", [2])] := by
  refine ⟨?_, by decide, by decide⟩
  unfold load_output rename_load_columns
  rw [mapM_option_eq_map _ (fun col : String × List Rat =>
      ("Load_MW_z"
          ++ Nat.repr ((regions.filter (fun x => decide (pyLt x col.1))).length + 1),
        col.2)) load ?_]
  · show some (load_astype_int (load.map _)) = _
    unfold load_astype_int
    rw [List.map_map]
    rfl
  · intro col hcol
    have hc : col.1 ∈ regions := hcols col.1 (List.mem_map.mpr ⟨col, hcol, rfl⟩)
    rw [zone_lookup_rank hnd hc]
    rfl

/-- Witness for C7, at `model_regions = ["a","b"]` with load values 12.7, 2.5. -/
theorem C7_load_curve_output_witness :
    load_output (zone_num_map (pySorted ["a", "b"]))
        [("a", [mkRat 127 10]), ("b", [mkRat 5 2])]
      = some [("Load_MW_z1", [12]), ("Load_MW_z2", [2])] := by
  have h := (C7_load_curve_output ["a", "b"] (by decide)
    [("a", [mkRat 127 10]), ("b", [mkRat 5 2])] (by decide)).1
  rw [h]
  decide

/-- Claim C8: the CSV writer serializes every generator-cluster float with
`%.3f` — exactly three digits after the decimal point — and every transmission
float with `%.1f` — exactly one digit — rounding to the requested precision:
a cluster capacity 100.12345 is written "100.123" and a transmission distance
52.37 is written "52.4". -/
theorem C8_csv_float_precision :
    (∀ table : List (List Rat), ∀ row ∈ to_csv_float_format 3 table, ∀ cell ∈ row,
        ∃ q : Rat, cell = float_int_part 3 q ++ "." ++ float_frac_part 3 q
          ∧ (float_frac_part 3 q).length = 3)
    ∧ (∀ table : List (List Rat), ∀ row ∈ to_csv_float_format 1 table, ∀ cell ∈ row,
        ∃ q : Rat, cell = float_int_part 1 q ++ "." ++ float_frac_part 1 q
          ∧ (float_frac_part 1 q).length = 1)
    ∧ float_format 3 (mkRat 10012345 100000) = "100.123"
    ∧ float_format 1 (mkRat 5237 100) = "52.4" := by
  refine ⟨?_, ?_, ?_, ?_⟩
  · intro table row hrow cell hcell
    obtain ⟨r0, _, rfl⟩ := List.mem_map.mp hrow
    obtain ⟨q, _, rfl⟩ := List.mem_map.mp hcell
    exact ⟨q, rfl, float_frac_part_length 3 q⟩
  · intro table row hrow cell hcell
    obtain ⟨r0, _, rfl⟩ := List.mem_map.mp hrow
    obtain ⟨q, _, rfl⟩ := List.mem_map.mp hcell
    exact ⟨q, rfl, float_frac_part_length 1 q⟩
  · have h : round_scaled 3 (mkRat 10012345 100000) = 100123 := by
      unfold round_scaled
      rw [round_eq, Int.floor_eq_iff]
      constructor
      · norm_num [Rat.mkRat_eq_div]
      · norm_num [Rat.mkRat_eq_div]
    unfold float_format float_int_part float_frac_part
    rw [h]
    decide
  · have h : round_scaled 1 (mkRat 5237 100) = 524 := by
      unfold round_scaled
      rw [round_eq, Int.floor_eq_iff]
      constructor
      · norm_num [Rat.mkRat_eq_div]
      · norm_num [Rat.mkRat_eq_div]
    unfold float_format float_int_part float_frac_part
    rw [h]
    decide

/-- Witness for C8, at the generator-cluster cell "100.123". -/
theorem C8_csv_float_precision_witness :
    ∃ q : Rat, "100.123" = float_int_part 3 q ++ "." ++ float_frac_part 3 q
      ∧ (float_frac_part 3 q).length = 3 := by
  have hmem : ["100.123"] ∈ to_csv_float_format 3 [[mkRat 10012345 100000]] := by
    rw [show to_csv_float_format 3 [[mkRat 10012345 100000]]
        = [[float_format 3 (mkRat 10012345 100000)]] from rfl,
      C8_csv_float_precision.2.2.1]
    exact List.mem_singleton.mpr rfl
  exact C8_csv_float_precision.1 [[mkRat 10012345 100000]] ["100.123"] hmem
    "100.123" (List.mem_singleton.mpr rfl)

end PowerGenome
